import Mathlib

/-!
Verification of the recommendation engine of the VEGETABLE-RECOMMEND repository.

The repository has two source files: `app.py`, a database-backed HTTP service whose
endpoint `api_recommend_sabzi` carries the dish-matching engine, and
`sabzi_agent.py`, a file-backed console agent with its own recommendation routine
`recommend_sabzi_for_family`.  This file is a shallow embedding of the pure
computational content of both: ingredient-name normalization, the season table,
the seasonal filter, the preference intersection, the dish matcher with its
fixed allow-list of common seasoning ingredients, the outcome classification of
each endpoint, and the preference upsert of the console menu.

Modelling conventions:
* Python strings are Lean `String` (lists of unicode scalar values); Python
  `str.lower` is modelled by `Char.toLower`, which lowercases the basic Latin
  range.  The repository's data is ASCII Latin plus Devanagari, and Devanagari
  has no case, so this matches Python on the data the program handles.
* The regex character class `\w` (Python, unicode mode) is modelled on the same
  material: ASCII alphanumerics plus underscore; the explicit extra range
  `ऀ-ॿ` of the source is carried over verbatim.
* Python `set` is `Finset String`.  Where the source iterates a set (only in
  `sabzi_agent.py`), the iteration order is unspecified in Python; it is
  modelled canonically by `sortedList` below, and nothing proved about the
  agent depends on that order.
* Python string comparison (used by `sorted`) is lexicographic on code points;
  it is modelled by `pyLeChars`/`strLe` below.
* `datetime.now().month` is passed in as an explicit `month : Nat` argument;
  the loaded JSON catalogs and the member registry are explicit arguments.
-/

/-- Record of `vegetables.json`: a vegetable name, its seasons (possibly the
sentinel `"year-round"`), and legacy per-vegetable dish-name hints (used only by
the file-backed agent). -/
structure Vegetable where
  name : String
  seasonal : List String
  dishes : List String
deriving DecidableEq

/-- Record of `dishes.json`: a dish name and its free-text ingredient names. -/
structure Dish where
  name : String
  ingredients : List String
deriving DecidableEq

/-- A registered family member: display name and favorite vegetable names
(`user_preferences.json` entry, or a `FamilyMember` database row). -/
structure FamilyMember where
  name : String
  favorite_vegetables : List String
deriving DecidableEq

/-- Season table of `get_current_season` (identical in `app.py` lines 69-79 and
`sabzi_agent.py` lines 20-30): months 3-6 summer, 7-9 monsoon, 10-11 autumn,
everything else winter. -/
def get_current_season (month : Nat) : String :=
  if 3 ≤ month ∧ month ≤ 6 then "summer"
  else if 7 ≤ month ∧ month ≤ 9 then "monsoon"
  else if 10 ≤ month ∧ month ≤ 11 then "autumn"
  else "winter"

/-- Seasonal filter (`get_seasonal_vegetables`, identical in both files): keep
the names of the vegetables whose `seasonal` list contains `"year-round"` or
the current season. -/
def get_seasonal_vegetables (current_season : String) (all_vegetables_data : List Vegetable) :
    List String :=
  (all_vegetables_data.filter (fun veg =>
    decide ("year-round" ∈ veg.seasonal) || decide (current_season ∈ veg.seasonal))).map
    (fun veg => veg.name)

/-- Character class of the regex `[^\wऀ-ॿ]` of
`normalize_ingredient_name` (`app.py` line 96): a character is kept (a "word"
character) when it is an ASCII alphanumeric, an underscore, or a Devanagari
code point U+0900-U+097F. -/
def isWordChar (c : Char) : Bool :=
  c.isAlphanum || c = '_' || (0x900 ≤ c.toNat && c.toNat ≤ 0x97F)

/-- Embedding of `re.sub(r'\([^)]*\)', '', name)` (`app.py` line 94).  The regex
scans left to right; at an opening parenthesis it consumes up to and including
the first closing parenthesis and deletes the whole span; an opening
parenthesis never followed by a closing one is kept.  The accumulator buffers
the characters seen since the pending opening parenthesis (in reverse) so that
they can be emitted verbatim when the input ends without a closing
parenthesis. -/
def removeParensAux : Option (List Char) → List Char → List Char
  | none, [] => []
  | some buf, [] => buf.reverse
  | none, c :: rest =>
    if c = '(' then removeParensAux (some [c]) rest
    else c :: removeParensAux none rest
  | some buf, c :: rest =>
    if c = ')' then removeParensAux none rest
    else removeParensAux (some (c :: buf)) rest

/-- Embedding of `re.sub(r'[^\wऀ-ॿ]+', ' ', name)` (`app.py` line 96):
every maximal run of non-word characters becomes a single space.  The flag
records whether the scanner is inside such a run (in which case further
non-word characters are dropped instead of emitting another space). -/
def collapseAux : Bool → List Char → List Char
  | _, [] => []
  | skipping, c :: rest =>
    if isWordChar c then c :: collapseAux false rest
    else if skipping then collapseAux true rest
    else ' ' :: collapseAux true rest

/-- Embedding of Python `str.strip()` (`app.py` line 97): drop leading and
trailing whitespace. -/
def stripChars (l : List Char) : List Char :=
  ((l.dropWhile Char.isWhitespace).reverse.dropWhile Char.isWhitespace).reverse

/-- The whole normalization pipeline of `normalize_ingredient_name` on the
character list: lowercase, delete parenthesized spans, collapse non-word runs
to single spaces, strip. -/
def pyNormalize (l : List Char) : List Char :=
  stripChars (collapseAux false (removeParensAux none (l.map Char.toLower)))

/-- Embedding of `normalize_ingredient_name` (`app.py` lines 89-98). -/
def normalize_ingredient_name (s : String) : String :=
  ⟨pyNormalize s.data⟩

/-- Python string comparison on character lists: lexicographic by code point.
This is the order used by Python's `sorted` on the suggestion strings. -/
def pyLeChars : List Char → List Char → Bool
  | [], _ => true
  | _ :: _, [] => false
  | a :: s, b :: t =>
    if a.toNat < b.toNat then true
    else if b.toNat < a.toNat then false
    else pyLeChars s t

/-- Python string `<=` on `String`. -/
def strLe (s t : String) : Bool := pyLeChars s.data t.data

instance : IsTotal String (fun a b => strLe a b = true) :=
  ⟨fun s t => by
    have H : ∀ xs ys : List Char, pyLeChars xs ys = true ∨ pyLeChars ys xs = true := by
      intro xs
      induction xs with
      | nil => intro ys; left; rfl
      | cons a s ih =>
        intro ys
        cases ys with
        | nil => right; rfl
        | cons b t =>
          by_cases h1 : a.toNat < b.toNat
          · left; simp [pyLeChars, h1]
          · by_cases h2 : b.toNat < a.toNat
            · right; simp [pyLeChars, h2]
            · have := ih t
              simp only [pyLeChars, h1, h2, if_false]
              simpa using this
    exact H s.data t.data⟩

instance : IsTrans String (fun a b => strLe a b = true) :=
  ⟨fun a b c hab hbc => by
    have H : ∀ xs ys zs : List Char,
        pyLeChars xs ys = true → pyLeChars ys zs = true → pyLeChars xs zs = true := by
      intro xs
      induction xs with
      | nil => intro ys zs h1 h2; rfl
      | cons x s ih =>
        intro ys zs h1 h2
        cases ys with
        | nil => simp [pyLeChars] at h1
        | cons y t =>
          cases zs with
          | nil => simp [pyLeChars] at h2
          | cons z u =>
            simp only [pyLeChars] at h1 h2 ⊢
            by_cases hxy : x.toNat < y.toNat
            · by_cases hyz : y.toNat < z.toNat
              · simp [show x.toNat < z.toNat by omega]
              · by_cases hzy : z.toNat < y.toNat
                · simp [pyLeChars, hyz, hzy] at h2
                · simp [show x.toNat < z.toNat by omega]
            · by_cases hyx : y.toNat < x.toNat
              · simp [hxy, hyx] at h1
              · by_cases hyz : y.toNat < z.toNat
                · simp [show x.toNat < z.toNat by omega]
                · by_cases hzy : z.toNat < y.toNat
                  · simp [hyz, hzy] at h2
                  · have hxz : ¬ x.toNat < z.toNat := by omega
                    have hzx : ¬ z.toNat < x.toNat := by omega
                    simp only [hxz, hzx, if_false]
                    simp only [hxy, hyx, if_false] at h1
                    simp only [hyz, hzy, if_false] at h2
                    exact ih t u h1 h2
    exact H a.data b.data c.data hab hbc⟩

instance : IsAntisymm String (fun a b => strLe a b = true) :=
  ⟨fun s t h1 h2 => by
    have H : ∀ xs ys : List Char,
        pyLeChars xs ys = true → pyLeChars ys xs = true → xs = ys := by
      intro xs
      induction xs with
      | nil =>
        intro ys h1 h2
        cases ys with
        | nil => rfl
        | cons b t => simp [pyLeChars] at h2
      | cons a s ih =>
        intro ys h1 h2
        cases ys with
        | nil => simp [pyLeChars] at h1
        | cons b t =>
          by_cases hab : a.toNat < b.toNat
          · simp [pyLeChars, hab, show ¬ b.toNat < a.toNat from Nat.lt_asymm hab] at h2
          · by_cases hba : b.toNat < a.toNat
            · simp [pyLeChars, hab, hba] at h1
            · have hval : a = b := by
                have hn : a.toNat = b.toNat := by omega
                have hv : a.val = b.val := by
                  apply UInt32.toNat.inj
                  exact hn
                exact Char.eq_of_val_eq hv
              simp only [pyLeChars, hab, hba, if_false] at h1 h2
              rw [hval, ih t h1 h2]
    cases s with
    | mk ls =>
      cases t with
      | mk lt =>
        have := H ls lt h1 h2
        simp [this]⟩

/-- The fixed allow-list `common_sabzi_ingredients` of `api_recommend_sabzi`
(`app.py` lines 187-191), verbatim. -/
def common_sabzi_ingredients : List String :=
  ["Onion (प्याज)", "Tomato (टमाटर)", "Ginger (अदरक)", "Garlic (लहसुन)",
   "Green Chili (हरी मिर्च)", "Coriander Leaves (हरा धनिया)", "Mint (पुदीना)",
   "Curry Leaves (करी पत्ता)", "Capsicum (शिमला मिर्च)"]

/-- `normalized_common` of `app.py` line 192: the normalized allow-list. -/
def normalized_common : Finset String :=
  (common_sabzi_ingredients.map normalize_ingredient_name).toFinset

/-- Per-dish selection test of the matcher loop (`app.py` lines 195-205): skip a
dish with an empty ingredient set; otherwise normalize the ingredients, take
the main ingredients (normalized ingredients minus the normalized allow-list),
require some main ingredient to be in the normalized preferred set, and require
every normalized ingredient outside the normalized preferred set to be in the
normalized allow-list. -/
def dishSelected (normalized_available_and_preferred_veg : Finset String) (dish : Dish) : Bool :=
  if dish.ingredients.toFinset = (∅ : Finset String) then false
  else
    let normalized_ingredients := dish.ingredients.toFinset.image normalize_ingredient_name
    let main_ingredients := normalized_ingredients \ normalized_common
    decide (∃ i ∈ main_ingredients, i ∈ normalized_available_and_preferred_veg) &&
      decide (∀ i ∈ normalized_ingredients \ normalized_available_and_preferred_veg,
        i ∈ normalized_common)

/-- The suggestion string appended for a selected dish (`app.py` line 205). -/
def suggestion_for_dish (dish_name : String) : String :=
  "Today, you can make " ++ dish_name ++ "."

/-- The `possible_dishes` list built by the matcher loop (`app.py` lines
194-205), in catalog order. -/
def possible_dishes (normalized_available_and_preferred_veg : Finset String)
    (dishes_data : List Dish) : List String :=
  dishes_data.filterMap (fun dish_info =>
    if dishSelected normalized_available_and_preferred_veg dish_info then
      some (suggestion_for_dish dish_info.name)
    else none)

/-- `sorted(list(set(possible_dishes)))` of `app.py` line 208: deduplicate,
then sort by Python string order. -/
def unique_sorted_suggestions (possible : List String) : List String :=
  List.insertionSort (fun a b => strLe a b = true) possible.dedup

/-- The favorite-vegetable sets of the present members, in presence order
(`app.py` lines 164-169 / `sabzi_agent.py` lines 66-71): for each present name,
the favorites of the first registry entry with that exact name, as a set. -/
def present_members_fav_veg (members : List FamilyMember) (present_members : List String) :
    List (Finset String) :=
  present_members.filterMap (fun member_name =>
    (members.find? (fun m => m.name = member_name)).map
      (fun m => m.favorite_vegetables.toFinset))

/-- The common-favorites computation (`app.py` lines 174-177 /
`sabzi_agent.py` lines 78-81): the single set when exactly one is present,
otherwise the intersection of all of them. -/
def common_fav_veg : List (Finset String) → Finset String
  | [] => ∅
  | f :: fs => if fs = [] then f else fs.foldl (fun a b => a ∩ b) f

/-- Outcome classification of a recommendation call.  Constructors correspond
to the distinct return points of `api_recommend_sabzi` (status `error` /
`warning` / `success` / `info` of the JSON response) and of
`recommend_sabzi_for_family` (distinct returned message strings); `success`
carries the recommendation text, `errorUnknown` the unrecognized names. -/
inductive Outcome where
  | errorNoMembers
  | errorNoRegistered
  | errorUnknown (names : List String)
  | errorNoFavs
  | warningNoCommon
  | errorNoneSeasonal
  | success (recommendation : String)
  | info
deriving DecidableEq

/-- Embedding of the database-backed endpoint `api_recommend_sabzi` (`app.py`
lines 146-214).  `members` is the current user's registry snapshot, `month` the
current month, `present_members` the request body list. -/
def api_recommend_sabzi (members : List FamilyMember) (vegetables_data : List Vegetable)
    (dishes_data : List Dish) (month : Nat) (present_members : List String) : Outcome :=
  if present_members = [] then .errorNoMembers
  else if members = [] then .errorNoRegistered
  else
    let all_registered_members := members.map (fun m => m.name)
    let invalid_members := present_members.filter (fun m => decide (m ∉ all_registered_members))
    if invalid_members ≠ [] then .errorUnknown invalid_members
    else
      let favs := present_members_fav_veg members present_members
      if favs = [] then .errorNoFavs
      else
        let common_fav_veg_set := common_fav_veg favs
        if common_fav_veg_set = ∅ then .warningNoCommon
        else
          let current_season := get_current_season month
          let seasonal_veg_names := get_seasonal_vegetables current_season vegetables_data
          let available_and_preferred_veg := common_fav_veg_set ∩ seasonal_veg_names.toFinset
          let normalized_available_and_preferred_veg :=
            available_and_preferred_veg.image normalize_ingredient_name
          let possible := possible_dishes normalized_available_and_preferred_veg dishes_data
          if possible = [] then .info
          else
            match unique_sorted_suggestions possible with
            | [u] => .success u
            | us => .success ("Today, you can make (loved by everyone present):\n" ++
                String.intercalate "\n" us)

/-- Canonical iteration order for a Python set of strings, used where
`sabzi_agent.py` iterates a set: Python leaves the order unspecified, so the
model picks the code-point-sorted order, which is well defined on the
underlying multiset because the order is total and antisymmetric. -/
def sortedList (s : Finset String) : List String :=
  Quot.liftOn s.val (fun l => List.insertionSort (fun a b => strLe a b = true) l)
    (fun l1 l2 h => List.eq_of_perm_of_sorted
      ((List.perm_insertionSort _ l1).trans ((Quotient.exact (Quot.sound h)).trans
        (List.perm_insertionSort _ l2).symm))
      (List.sorted_insertionSort _ l1) (List.sorted_insertionSort _ l2))

/-- Embedding of the file-backed agent `recommend_sabzi_for_family`
(`sabzi_agent.py` lines 45-116).  The console input of present members is
passed as the `present_members` argument (the source reads it interactively
after the registry check); `list(set(suggestions))` keeps the first occurrence
of each suggestion, its Python iteration order being unspecified. -/
def recommend_sabzi_for_family (members : List FamilyMember) (vegetables_data : List Vegetable)
    (month : Nat) (present_members : List String) : Outcome :=
  if members = [] then .errorNoRegistered
  else
    let all_members := members.map (fun m => m.name)
    let invalid_members := present_members.filter (fun m => decide (m ∉ all_members))
    if invalid_members ≠ [] then .errorUnknown invalid_members
    else
      let favs := present_members_fav_veg members present_members
      if favs = [] then .errorNoFavs
      else
        let common_fav_veg_set := common_fav_veg favs
        if common_fav_veg_set = ∅ then .warningNoCommon
        else
          let current_season := get_current_season month
          let seasonal_veg_names := get_seasonal_vegetables current_season vegetables_data
          let common_and_seasonal_veg :=
            (sortedList common_fav_veg_set).filter (fun v => decide (v ∈ seasonal_veg_names))
          if common_and_seasonal_veg = [] then .errorNoneSeasonal
          else
            let suggestions := common_and_seasonal_veg.flatMap (fun veg_name =>
              match vegetables_data.find? (fun v => v.name = veg_name) with
              | some veg_info =>
                if veg_info.dishes ≠ [] then
                  veg_info.dishes.map (fun dish => "Today, you can make " ++ dish ++ ".")
                else ["Today, you can make " ++ veg_name ++ " Sabzi."]
              | none => [])
            if suggestions = [] then .info
            else
              match suggestions.dedup with
              | [u] => .success u
              | us => .success ("Today, you can make (loved by everyone present):\n" ++
                  String.intercalate "\n" us)

/-- Embedding of the preference upsert of the console menu (`sabzi_agent.py`
lines 166-176): scan the registry for the first entry whose stored name equals
the given name exactly; replace its favorites (keeping the stored name) if
found, otherwise append a new member at the end.  The database-backed
`api_set_preferences` (`app.py` lines 135-143) filters by the same exact
equality on the name column. -/
def upsert_member : List FamilyMember → String → List String → List FamilyMember
  | [], member_name, favs_list => [⟨member_name, favs_list⟩]
  | member :: rest, member_name, favs_list =>
    if member.name = member_name then ⟨member.name, favs_list⟩ :: rest
    else member :: upsert_member rest member_name favs_list

/-! Helper lemmas: the normalization pipeline. -/

theorem toLower_fix (d : Char) (h : ¬ (d.toNat ≥ 65 ∧ d.toNat ≤ 90)) : d.toLower = d := by
  simp only [Char.toLower]
  rw [if_neg h]

theorem toLower_toLower (c : Char) : c.toLower.toLower = c.toLower := by
  by_cases h : c.toNat ≥ 65 ∧ c.toNat ≤ 90
  · have hv : (c.toNat + 32).isValidChar := Or.inl (by omega)
    have hval : (Char.ofNat (c.toNat + 32)).toNat = c.toNat + 32 := by
      simp only [Char.ofNat, Char.ofNatAux]
      rw [dif_pos hv]
      rfl
    have hlower : c.toLower = Char.ofNat (c.toNat + 32) := by
      simp only [Char.toLower]
      rw [if_pos h]
    rw [hlower]
    apply toLower_fix
    rw [hval]
    omega
  · rw [toLower_fix c h, toLower_fix c h]

/-- Adjacency invariant of the collapsed output: no two neighbouring
characters are both non-word (every space separator is followed by a word
character). -/
def wordNeighbor (a b : Char) : Prop := isWordChar a = true ∨ isWordChar b = true

theorem mem_removeParensAux : ∀ (obuf : Option (List Char)) (l : List Char) (c : Char),
    c ∈ removeParensAux obuf l → c ∈ l ∨ ∃ bl, obuf = some bl ∧ c ∈ bl := by
  intro obuf l
  induction l generalizing obuf with
  | nil =>
    intro c hc
    cases obuf with
    | none => simp [removeParensAux] at hc
    | some bl =>
      simp only [removeParensAux, List.mem_reverse] at hc
      exact Or.inr ⟨bl, rfl, hc⟩
  | cons a rest ih =>
    intro c hc
    cases obuf with
    | none =>
      by_cases ha : a = '('
      · simp only [removeParensAux, if_pos ha] at hc
        rcases ih (some [a]) c hc with h | ⟨bl, hbl, hm⟩
        · exact Or.inl (List.mem_cons_of_mem _ h)
        · cases Option.some.inj hbl
          simp at hm
          subst hm
          exact Or.inl (List.mem_cons_self _ _)
      · simp only [removeParensAux, if_neg ha, List.mem_cons] at hc
        rcases hc with h | h
        · exact Or.inl (h ▸ List.mem_cons_self _ _)
        · rcases ih none c h with h2 | ⟨bl, hbl, _⟩
          · exact Or.inl (List.mem_cons_of_mem _ h2)
          · exact absurd hbl (by simp)
    | some buf =>
      by_cases ha : a = ')'
      · simp only [removeParensAux, if_pos ha] at hc
        rcases ih none c hc with h | ⟨bl, hbl, _⟩
        · exact Or.inl (List.mem_cons_of_mem _ h)
        · exact absurd hbl (by simp)
      · simp only [removeParensAux, if_neg ha] at hc
        rcases ih (some (a :: buf)) c hc with h | ⟨bl, hbl, hm⟩
        · exact Or.inl (List.mem_cons_of_mem _ h)
        · cases Option.some.inj hbl
          rcases List.mem_cons.mp hm with h2 | h2
          · exact Or.inl (h2 ▸ List.mem_cons_self _ _)
          · exact Or.inr ⟨buf, rfl, h2⟩

theorem removeParensAux_id : ∀ l : List Char, '(' ∉ l → removeParensAux none l = l := by
  intro l
  induction l with
  | nil => intro; rfl
  | cons a rest ih =>
    intro h
    have ha : a ≠ '(' := fun he => h (he ▸ List.mem_cons_self _ _)
    simp only [removeParensAux, if_neg ha]
    rw [ih (fun hm => h (List.mem_cons_of_mem _ hm))]

theorem mem_collapseAux : ∀ (l : List Char) (b : Bool) (c : Char),
    c ∈ collapseAux b l → c = ' ' ∨ (isWordChar c = true ∧ c ∈ l) := by
  intro l
  induction l with
  | nil => intro b c hc; simp [collapseAux] at hc
  | cons a rest ih =>
    intro b c hc
    by_cases ha : isWordChar a = true
    · simp only [collapseAux, if_pos ha, List.mem_cons] at hc
      rcases hc with h | h
      · exact Or.inr ⟨h ▸ ha, h ▸ List.mem_cons_self _ _⟩
      · rcases ih false c h with h2 | ⟨hw, hm⟩
        · exact Or.inl h2
        · exact Or.inr ⟨hw, List.mem_cons_of_mem _ hm⟩
    · simp only [collapseAux, if_neg ha] at hc
      cases b with
      | true =>
        rw [if_pos rfl] at hc
        rcases ih true c hc with h2 | ⟨hw, hm⟩
        · exact Or.inl h2
        · exact Or.inr ⟨hw, List.mem_cons_of_mem _ hm⟩
      | false =>
        rw [if_neg (by decide)] at hc
        rcases List.mem_cons.mp hc with h | h
        · exact Or.inl h
        · rcases ih true c h with h2 | ⟨hw, hm⟩
          · exact Or.inl h2
          · exact Or.inr ⟨hw, List.mem_cons_of_mem _ hm⟩

theorem head_collapseAux_true : ∀ (l : List Char) (c : Char),
    (collapseAux true l).head? = some c → isWordChar c = true := by
  intro l
  induction l with
  | nil => intro c hc; simp [collapseAux] at hc
  | cons a rest ih =>
    intro c hc
    by_cases ha : isWordChar a = true
    · simp only [collapseAux, if_pos ha, List.head?_cons, Option.some.injEq] at hc
      exact hc ▸ ha
    · simp only [collapseAux, if_neg ha] at hc
      rw [if_pos trivial] at hc
      exact ih c hc

theorem chain_collapseAux : ∀ (l : List Char) (b : Bool),
    List.Chain' wordNeighbor (collapseAux b l) := by
  intro l
  induction l with
  | nil => intro b; simp [collapseAux]
  | cons a rest ih =>
    intro b
    by_cases ha : isWordChar a = true
    · simp only [collapseAux, if_pos ha]
      apply List.chain'_cons'.mpr
      refine ⟨fun y _ => Or.inl ha, ih false⟩
    · simp only [collapseAux, if_neg ha]
      cases b with
      | true =>
        rw [if_pos rfl]
        exact ih true
      | false =>
        rw [if_neg (by decide)]
        apply List.chain'_cons'.mpr
        refine ⟨fun y hy => Or.inr (head_collapseAux_true rest y hy), ih true⟩

theorem collapseAux_id : ∀ l : List Char,
    (∀ c ∈ l, isWordChar c = true ∨ c = ' ') → List.Chain' wordNeighbor l →
    collapseAux false l = l := by
  intro l
  induction l with
  | nil => intro _ _; rfl
  | cons a rest ih =>
    intro hmem hchain
    by_cases ha : isWordChar a = true
    · simp only [collapseAux, if_pos ha]
      rw [ih (fun c hc => hmem c (List.mem_cons_of_mem _ hc)) hchain.tail]
    · have ha2 : a = ' ' := (hmem a (List.mem_cons_self _ _)).resolve_left ha
      simp only [collapseAux, if_neg ha]
      cases rest with
      | nil =>
        rw [if_neg (by decide)]
        simp [collapseAux, ha2]
      | cons d r =>
        have hd : isWordChar d = true := by
          rcases (List.chain'_cons.mp hchain).1 with h | h
          · exact absurd h ha
          · exact h
        have hrest : collapseAux false (d :: r) = d :: r :=
          ih (fun c hc => hmem c (List.mem_cons_of_mem _ hc)) hchain.tail
        simp only [collapseAux, if_pos hd] at hrest
        have hr : collapseAux false r = r := by
          exact (List.cons.injEq _ _ _ _).mp hrest |>.2
        rw [if_neg (by decide)]
        simp only [collapseAux, if_pos hd, hr, ha2]

theorem stripChars_decomp (l : List Char) :
    ∃ s t, l = s ++ stripChars l ++ t := by
  refine ⟨l.takeWhile Char.isWhitespace,
    ((l.dropWhile Char.isWhitespace).reverse.takeWhile Char.isWhitespace).reverse, ?_⟩
  conv_lhs => rw [← List.takeWhile_append_dropWhile Char.isWhitespace l]
  rw [List.append_assoc]
  congr 1
  conv_lhs => rw [← List.reverse_reverse (l.dropWhile Char.isWhitespace)]
  conv_lhs =>
    rw [← List.takeWhile_append_dropWhile Char.isWhitespace
      (l.dropWhile Char.isWhitespace).reverse]
  rw [List.reverse_append]
  rfl

theorem head_dropWhile_not (p : Char → Bool) : ∀ (l : List Char) (c : Char),
    (l.dropWhile p).head? = some c → p c = false := by
  intro l
  induction l with
  | nil => intro c hc; simp [List.dropWhile] at hc
  | cons a rest ih =>
    intro c hc
    by_cases ha : p a = true
    · rw [List.dropWhile_cons, if_pos ha] at hc
      exact ih c hc
    · rw [List.dropWhile_cons, if_neg ha, List.head?_cons] at hc
      cases Option.some.inj hc
      exact Bool.not_eq_true _ |>.mp ha

theorem stripChars_head (l : List Char) (c : Char)
    (h : (stripChars l).head? = some c) : c.isWhitespace = false := by
  unfold stripChars at h
  set u := l.dropWhile Char.isWhitespace with hu
  have hdec : ∃ t, u = (u.reverse.dropWhile Char.isWhitespace).reverse ++ t := by
    refine ⟨(u.reverse.takeWhile Char.isWhitespace).reverse, ?_⟩
    conv_lhs => rw [← List.reverse_reverse u]
    conv_lhs => rw [← List.takeWhile_append_dropWhile Char.isWhitespace u.reverse]
    rw [List.reverse_append]
  rcases hdec with ⟨t, ht⟩
  cases hv : (u.reverse.dropWhile Char.isWhitespace).reverse with
  | nil => rw [hv] at h; simp at h
  | cons x v =>
    rw [hv, List.head?_cons] at h
    obtain rfl : x = c := Option.some.inj h
    have hx : u.head? = some x := by
      rw [ht, hv, List.cons_append, List.head?_cons]
    exact head_dropWhile_not Char.isWhitespace l x hx

theorem stripChars_getLast (l : List Char) (c : Char)
    (h : (stripChars l).getLast? = some c) : c.isWhitespace = false := by
  unfold stripChars at h
  rw [← List.head?_reverse, List.reverse_reverse] at h
  exact head_dropWhile_not Char.isWhitespace _ c h

theorem dropWhile_id_of_head (p : Char → Bool) (l : List Char)
    (h : ∀ c, l.head? = some c → p c = false) : l.dropWhile p = l := by
  cases l with
  | nil => rfl
  | cons a rest =>
    rw [List.dropWhile_cons, if_neg]
    rw [h a (by rw [List.head?_cons])]
    simp

theorem stripChars_id (l : List Char)
    (h1 : ∀ c, l.head? = some c → c.isWhitespace = false)
    (h2 : ∀ c, l.getLast? = some c → c.isWhitespace = false) :
    stripChars l = l := by
  unfold stripChars
  rw [dropWhile_id_of_head Char.isWhitespace l h1]
  rw [dropWhile_id_of_head Char.isWhitespace l.reverse
    (fun c hc => h2 c (by rwa [List.head?_reverse] at hc))]
  exact List.reverse_reverse l

theorem chainR_append_drop {u v : List Char}
    (h : List.Chain' wordNeighbor (u ++ v)) : List.Chain' wordNeighbor v := by
  induction u with
  | nil => exact h
  | cons a u ih => exact ih (List.Chain'.tail h)

theorem chainR_append_take : ∀ (m t : List Char),
    List.Chain' wordNeighbor (m ++ t) → List.Chain' wordNeighbor m := by
  intro m
  induction m with
  | nil => intro t _; simp
  | cons a m ih =>
    intro t h
    cases m with
    | nil => simp
    | cons b m' =>
      rw [List.cons_append, List.cons_append] at h
      have h2 := List.chain'_cons.mp h
      apply List.chain'_cons.mpr
      refine ⟨h2.1, ih t ?_⟩
      rw [List.cons_append]
      exact h2.2

theorem map_toLower_id (l : List Char) (h : ∀ c ∈ l, Char.toLower c = c) :
    l.map Char.toLower = l := by
  induction l with
  | nil => rfl
  | cons a rest ih =>
    rw [List.map_cons, h a (List.mem_cons_self _ _),
      ih (fun c hc => h c (List.mem_cons_of_mem _ hc))]

theorem stripChars_chain (z : List Char) (h : List.Chain' wordNeighbor z) :
    List.Chain' wordNeighbor (stripChars z) := by
  rcases stripChars_decomp z with ⟨s, t, hst⟩
  rw [hst, List.append_assoc] at h
  exact chainR_append_take _ _ (chainR_append_drop h)

theorem stripChars_mem (z : List Char) (c : Char) (hc : c ∈ stripChars z) : c ∈ z := by
  rcases stripChars_decomp z with ⟨s, t, hst⟩
  rw [hst]
  simp only [List.mem_append]
  exact Or.inl (Or.inr hc)

theorem pyNormalize_fixed (y : List Char)
    (hws : ∀ c ∈ y, isWordChar c = true ∨ c = ' ')
    (hchain : List.Chain' wordNeighbor y)
    (hlower : ∀ c ∈ y, Char.toLower c = c)
    (h1 : ∀ c, y.head? = some c → c.isWhitespace = false)
    (h2 : ∀ c, y.getLast? = some c → c.isWhitespace = false) :
    pyNormalize y = y := by
  unfold pyNormalize
  rw [map_toLower_id y hlower]
  rw [removeParensAux_id y (fun hc => by rcases hws '(' hc with h | h <;> revert h <;> decide)]
  rw [collapseAux_id y hws hchain]
  exact stripChars_id y h1 h2

theorem pyNormalize_idem (l : List Char) : pyNormalize (pyNormalize l) = pyNormalize l := by
  apply pyNormalize_fixed
  · intro c hc
    rcases mem_collapseAux _ false c (stripChars_mem _ c hc) with h | ⟨hw, _⟩
    · exact Or.inr h
    · exact Or.inl hw
  · exact stripChars_chain _ (chain_collapseAux _ false)
  · intro c hc
    rcases mem_collapseAux _ false c (stripChars_mem _ c hc) with h | ⟨_, hm⟩
    · rw [h]; decide
    · rcases mem_removeParensAux none _ c hm with h2 | ⟨bl, hbl, _⟩
      · rcases List.mem_map.mp h2 with ⟨d, _, hd⟩
        rw [← hd]
        exact toLower_toLower d
      · exact absurd hbl (by simp)
  · intro c hc
    exact stripChars_head _ c hc
  · intro c hc
    exact stripChars_getLast _ c hc

/-! Helper lemmas: the recommendation pipeline. -/

theorem mem_foldl_inter (f : Finset String) (fs : List (Finset String)) (v : String) :
    v ∈ fs.foldl (fun a b => a ∩ b) f ↔ v ∈ f ∧ ∀ s ∈ fs, v ∈ s := by
  induction fs generalizing f with
  | nil => simp
  | cons g gs ih =>
    simp only [List.foldl_cons, ih, Finset.mem_inter, List.mem_cons]
    constructor
    · rintro ⟨⟨hf, hg⟩, hall⟩
      refine ⟨hf, fun s hs => ?_⟩
      rcases hs with he | hs
      · exact he ▸ hg
      · exact hall s hs
    · rintro ⟨hf, hall⟩
      exact ⟨⟨hf, hall g (Or.inl rfl)⟩, fun s hs => hall s (Or.inr hs)⟩

theorem all_registered_of_no_invalid (members : List FamilyMember) (present : List String)
    (h : present.filter (fun n => decide (n ∉ members.map (fun m => m.name))) = []) :
    ∀ n ∈ present, n ∈ members.map (fun m => m.name) := by
  intro n hn
  by_contra hcon
  have hmem : n ∈ present.filter (fun n => decide (n ∉ members.map (fun m => m.name))) :=
    List.mem_filter.mpr ⟨hn, by simpa using hcon⟩
  rw [h] at hmem
  exact absurd hmem (List.not_mem_nil n)

theorem present_members_fav_veg_length (members : List FamilyMember) :
    ∀ present : List String,
    (∀ n ∈ present, n ∈ members.map (fun m => m.name)) →
    (present_members_fav_veg members present).length = present.length := by
  intro present
  induction present with
  | nil => intro; rfl
  | cons n rest ih =>
    intro hall
    have hn : n ∈ members.map (fun m => m.name) := hall n (List.mem_cons_self _ _)
    rcases List.mem_map.mp hn with ⟨m, hm, hname⟩
    have hsome : (members.find? (fun m' => m'.name = n)).isSome := by
      rw [List.find?_isSome]
      exact ⟨m, hm, by simp [hname]⟩
    rcases Option.isSome_iff_exists.mp hsome with ⟨m', hm'⟩
    unfold present_members_fav_veg
    rw [List.filterMap_cons, hm']
    simp only [Option.map_some', List.length_cons]
    have := ih (fun x hx => hall x (List.mem_cons_of_mem _ hx))
    unfold present_members_fav_veg at this
    rw [this]

theorem present_members_fav_veg_ne_nil (members : List FamilyMember) (present : List String)
    (hp : present ≠ [])
    (hall : ∀ n ∈ present, n ∈ members.map (fun m => m.name)) :
    present_members_fav_veg members present ≠ [] := by
  intro hnil
  have hlen := present_members_fav_veg_length members present hall
  rw [hnil] at hlen
  cases present with
  | nil => exact hp rfl
  | cons a l => simp at hlen

/-! Claim theorems. -/

/-- C1: for every dish with a non-empty ingredient set, the matcher of
`api_recommend_sabzi` selects the dish iff (1) at least one of its normalized
ingredients outside the normalized allow-list belongs to the normalized
preferred set, and (2) every normalized ingredient not in the normalized
preferred set belongs to the normalized allow-list; a dish with an empty
ingredient set is never selected. -/
theorem C1_dishSelected_iff (normPref : Finset String) (dish : Dish) :
    dishSelected normPref dish = true ↔
      dish.ingredients ≠ [] ∧
      (∃ i ∈ dish.ingredients.toFinset.image normalize_ingredient_name,
        i ∉ normalized_common ∧ i ∈ normPref) ∧
      (∀ i ∈ dish.ingredients.toFinset.image normalize_ingredient_name,
        i ∉ normPref → i ∈ normalized_common) := by
  unfold dishSelected
  by_cases he : dish.ingredients.toFinset = (∅ : Finset String)
  · rw [if_pos he]
    have hnil : dish.ingredients = [] := (List.toFinset_eq_empty_iff _).mp he
    simp [hnil]
  · rw [if_neg he]
    simp only [Bool.and_eq_true, decide_eq_true_eq]
    constructor
    · rintro ⟨⟨i, hi, hp⟩, hall⟩
      rcases Finset.mem_sdiff.mp hi with ⟨him, hnc⟩
      refine ⟨fun hnil => he (by rw [hnil]; rfl), ⟨i, him, hnc, hp⟩, ?_⟩
      intro j hj hjp
      exact hall j (Finset.mem_sdiff.mpr ⟨hj, hjp⟩)
    · rintro ⟨hne, ⟨i, him, hnc, hp⟩, hall⟩
      refine ⟨⟨i, Finset.mem_sdiff.mpr ⟨him, hnc⟩, hp⟩, ?_⟩
      intro j hj
      rcases Finset.mem_sdiff.mp hj with ⟨hjm, hjp⟩
      exact hall j hjm hjp

/-- C3: a dish whose normalized ingredient set is entirely contained in the
normalized allow-list has no main ingredient, so the matcher never selects it,
whatever the preferred set. -/
theorem C3_allowlist_only_never_selected (normPref : Finset String) (dish : Dish)
    (h : dish.ingredients.toFinset.image normalize_ingredient_name ⊆ normalized_common) :
    dishSelected normPref dish = false := by
  unfold dishSelected
  by_cases he : dish.ingredients.toFinset = (∅ : Finset String)
  · rw [if_pos he]
  · rw [if_neg he]
    have hmain : dish.ingredients.toFinset.image normalize_ingredient_name \ normalized_common
        = ∅ := Finset.sdiff_eq_empty_iff_subset.mpr h
    simp [hmain]

/-- Witness for C3: the dish "Plain Tadka" made of allow-list ingredients only
is rejected even though the preferred set is non-empty. -/
theorem C3_witness :
    dishSelected {"potato"} ⟨"Plain Tadka", ["Onion (प्याज)", "Garlic (लहसुन)"]⟩ = false :=
  C3_allowlist_only_never_selected {"potato"}
    ⟨"Plain Tadka", ["Onion (प्याज)", "Garlic (लहसुन)"]⟩ (by decide)

/-- C6: `normalize_ingredient_name` is idempotent, and normalizing the empty
string yields the empty string. -/
theorem C6_normalize_idempotent :
    (∀ s : String, normalize_ingredient_name (normalize_ingredient_name s) =
      normalize_ingredient_name s) ∧
    normalize_ingredient_name "" = "" := by
  constructor
  · intro s
    unfold normalize_ingredient_name
    exact congrArg String.mk (pyNormalize_idem s.data)
  · rfl

/-- C7: the season table maps months 3-6 to summer, 7-9 to monsoon, 10-11 to
autumn, and 12, 1, 2 to winter. -/
theorem C7_season_table :
    get_current_season 3 = "summer" ∧ get_current_season 4 = "summer" ∧
    get_current_season 5 = "summer" ∧ get_current_season 6 = "summer" ∧
    get_current_season 7 = "monsoon" ∧ get_current_season 8 = "monsoon" ∧
    get_current_season 9 = "monsoon" ∧ get_current_season 10 = "autumn" ∧
    get_current_season 11 = "autumn" ∧ get_current_season 12 = "winter" ∧
    get_current_season 1 = "winter" ∧ get_current_season 2 = "winter" := by
  decide

/-- C8 counterexample: upserting under the differently-cased spelling "MOM" of
the registered name "Mom" does not update that member; it appends a second
member, leaving the first untouched, so case-insensitive matching fails at this
concrete input. -/
theorem C8_counterexample :
    upsert_member [⟨"Mom", ["Potato"]⟩] "MOM" ["Okra"] =
      [⟨"Mom", ["Potato"]⟩, ⟨"MOM", ["Okra"]⟩] ∧
    (upsert_member [⟨"Mom", ["Potato"]⟩] "MOM" ["Okra"]).length = 2 := by
  decide

/-- C8 (amended): the upsert matches an existing member name case-sensitively:
when no stored name equals the given name exactly, a new member is appended
(so a differently-cased spelling of an existing name creates a second member);
on an exact match the first matching member's favorites are replaced in place
and the stored name is kept. -/
theorem C8_upsert_case_sensitive :
    (∀ (reg : List FamilyMember) (member_name : String) (favs : List String),
      (∀ m ∈ reg, m.name ≠ member_name) →
      upsert_member reg member_name favs = reg ++ [⟨member_name, favs⟩]) ∧
    (∀ (pre post : List FamilyMember) (m : FamilyMember) (member_name : String)
      (favs : List String),
      (∀ m' ∈ pre, m'.name ≠ member_name) → m.name = member_name →
      upsert_member (pre ++ m :: post) member_name favs =
        pre ++ ⟨m.name, favs⟩ :: post) := by
  constructor
  · intro reg member_name favs
    induction reg with
    | nil => intro; rfl
    | cons a rest ih =>
      intro h
      have ha : a.name ≠ member_name := h a (List.mem_cons_self _ _)
      simp only [upsert_member, if_neg ha]
      rw [ih (fun m hm => h m (List.mem_cons_of_mem _ hm))]
      rfl
  · intro pre
    induction pre with
    | nil =>
      intro post m member_name favs _ hm
      simp only [List.nil_append, upsert_member, if_pos hm]
    | cons a rest ih =>
      intro post m member_name favs h hm
      have ha : a.name ≠ member_name := h a (List.mem_cons_self _ _)
      simp only [List.cons_append, upsert_member, if_neg ha]
      rw [List.append_eq]
      rw [ih post m member_name favs (fun m' hm' => h m' (List.mem_cons_of_mem _ hm')) hm]

/-- Witness for C8 (amended): an exact-name upsert replaces the favorites of
the matching member in place. -/
theorem C8_witness :
    upsert_member [⟨"Mom", ["Potato"]⟩] "Mom" ["Okra"] = [⟨"Mom", ["Okra"]⟩] :=
  C8_upsert_case_sensitive.2 [] [] ⟨"Mom", ["Potato"]⟩ "Mom" ["Okra"]
    (by intro m' hm'; cases hm') rfl

/-- C9 counterexample: with preferred set containing only "potato", the catalog
dishes "Aloo" and "Aloo!" are both selected, yet the presented order is not the
dish-name order: the suggestion strings append a final period, and the
character of "Aloo!" after the common prefix sorts before that period, so the
suggestions come out as [Aloo!, Aloo] while the name order is [Aloo, Aloo!]. -/
theorem C9_counterexample :
    1 < ((([⟨"Aloo", ["Potato"]⟩, ⟨"Aloo!", ["Potato"]⟩] : List Dish).filter
      (fun d => dishSelected {"potato"} d)).map (fun d => d.name)).length ∧
    unique_sorted_suggestions (possible_dishes {"potato"}
        [⟨"Aloo", ["Potato"]⟩, ⟨"Aloo!", ["Potato"]⟩]) ≠
      (List.insertionSort (fun a b => strLe a b = true)
        ((([⟨"Aloo", ["Potato"]⟩, ⟨"Aloo!", ["Potato"]⟩] : List Dish).filter
          (fun d => dishSelected {"potato"} d)).map (fun d => d.name)).dedup).map
        suggestion_for_dish := by
  decide

/-- C9 (amended): whenever the matcher selects dishes, the presented
suggestions are the deduplicated suggestion strings sorted lexicographically by
Python string order (hence the output is deterministic in the inputs); this is
sorting by the full suggestion text, which can differ from dish-name order when
one selected dish name extends another with a character that precedes the
final period. -/
theorem C9_suggestions_sorted (normPref : Finset String) (dishes_data : List Dish) :
    List.Sorted (fun a b => strLe a b = true)
      (unique_sorted_suggestions (possible_dishes normPref dishes_data)) ∧
    (unique_sorted_suggestions (possible_dishes normPref dishes_data)).Nodup := by
  constructor
  · exact List.sorted_insertionSort _ _
  · exact (List.perm_insertionSort _ _).symm.nodup
      (List.nodup_dedup (possible_dishes normPref dishes_data))

/-- C4: the endpoint validates in a fixed order with short-circuiting: an empty
present list yields the no-members error whatever the registry and catalogs; a
non-empty present list with an empty registry yields the no-registered error;
otherwise unknown present names yield the unknown-members error carrying
exactly the offending names; otherwise an empty favorite intersection yields
the (non-error) warning — in each case independently of the catalogs, so no
later pipeline stage can influence an earlier failure. -/
theorem C4_check_order :
    (∀ (members : List FamilyMember) (veg : List Vegetable) (dishes : List Dish) (month : Nat),
      api_recommend_sabzi members veg dishes month [] = .errorNoMembers) ∧
    (∀ (veg : List Vegetable) (dishes : List Dish) (month : Nat) (present : List String),
      present ≠ [] →
      api_recommend_sabzi [] veg dishes month present = .errorNoRegistered) ∧
    (∀ (members : List FamilyMember) (veg : List Vegetable) (dishes : List Dish) (month : Nat)
      (present : List String), present ≠ [] → members ≠ [] →
      present.filter (fun n => decide (n ∉ members.map (fun m => m.name))) ≠ [] →
      api_recommend_sabzi members veg dishes month present =
        .errorUnknown (present.filter (fun n => decide (n ∉ members.map (fun m => m.name))))) ∧
    (∀ (members : List FamilyMember) (veg : List Vegetable) (dishes : List Dish) (month : Nat)
      (present : List String), present ≠ [] → members ≠ [] →
      present.filter (fun n => decide (n ∉ members.map (fun m => m.name))) = [] →
      common_fav_veg (present_members_fav_veg members present) = ∅ →
      api_recommend_sabzi members veg dishes month present = .warningNoCommon) := by
  refine ⟨?_, ?_, ?_, ?_⟩
  · intro members veg dishes month
    unfold api_recommend_sabzi
    rw [if_pos rfl]
  · intro veg dishes month present hp
    unfold api_recommend_sabzi
    rw [if_neg hp, if_pos rfl]
  · intro members veg dishes month present hp hm hinv
    simp only [api_recommend_sabzi]
    rw [if_neg hp, if_neg hm, if_pos hinv]
  · intro members veg dishes month present hp hm hinv hcommon
    have hall := all_registered_of_no_invalid members present hinv
    have hfavs := present_members_fav_veg_ne_nil members present hp hall
    simp only [api_recommend_sabzi]
    rw [if_neg hp, if_neg hm, if_neg (by simpa using hinv), if_neg hfavs, if_pos hcommon]

/-- Witness for C4: concrete instances of all four stages, applied through the
theorem: empty present list, empty registry, the unknown name "Ghost", and two
members with disjoint favorites. -/
theorem C4_witness :
    api_recommend_sabzi [⟨"Mom", ["Potato"]⟩] [] [] 5 [] = .errorNoMembers ∧
    api_recommend_sabzi [] [] [] 5 ["Mom"] = .errorNoRegistered ∧
    api_recommend_sabzi [⟨"Mom", ["Potato"]⟩] [] [] 5 ["Ghost"] = .errorUnknown ["Ghost"] ∧
    api_recommend_sabzi [⟨"Mom", ["Potato"]⟩, ⟨"Dad", ["Okra"]⟩] [] [] 5 ["Mom", "Dad"]
      = .warningNoCommon := by
  refine ⟨C4_check_order.1 _ _ _ _, C4_check_order.2.1 _ _ _ _ (by decide), ?_, ?_⟩
  · have h := C4_check_order.2.2.1 [⟨"Mom", ["Potato"]⟩] [] [] 5 ["Ghost"]
      (by decide) (by decide) (by decide)
    simpa using h
  · exact C4_check_order.2.2.2 [⟨"Mom", ["Potato"]⟩, ⟨"Dad", ["Okra"]⟩] [] [] 5
      ["Mom", "Dad"] (by decide) (by decide) (by decide) (by decide)

/-- C5: the common-favorites computation returns the single present member's
favorite set unmodified when exactly one (known) member is present, and the
intersection of all the present members' favorite sets when two or more known
members are present. -/
theorem C5_common_favorites :
    (∀ (members : List FamilyMember) (n : String) (m : FamilyMember),
      members.find? (fun mem => mem.name = n) = some m →
      common_fav_veg (present_members_fav_veg members [n]) =
        m.favorite_vegetables.toFinset) ∧
    (∀ (members : List FamilyMember) (present : List String), 2 ≤ present.length →
      (∀ n ∈ present, n ∈ members.map (fun mem => mem.name)) →
      ∀ v, v ∈ common_fav_veg (present_members_fav_veg members present) ↔
        ∀ s ∈ present_members_fav_veg members present, v ∈ s) := by
  constructor
  · intro members n m hfind
    simp only [present_members_fav_veg, List.filterMap_cons, hfind, Option.map_some',
      List.filterMap_nil]
    rfl
  · intro members present h2 hall v
    have hlen := present_members_fav_veg_length members present hall
    cases hfv : present_members_fav_veg members present with
    | nil =>
      rw [hfv] at hlen
      simp at hlen
      omega
    | cons f fs =>
      have hfs : fs ≠ [] := by
        intro hfse
        rw [hfv, hfse] at hlen
        simp at hlen
        omega
      simp only [common_fav_veg]
      rw [if_neg hfs, mem_foldl_inter]
      constructor
      · rintro ⟨hf, hrest⟩ s hs
        rcases List.mem_cons.mp hs with he | hs
        · exact he ▸ hf
        · exact hrest s hs
      · intro hall2
        exact ⟨hall2 f (List.mem_cons_self _ _), fun s hs => hall2 s (List.mem_cons_of_mem _ hs)⟩

/-- Witness for C5: a single present member's set is passed through verbatim,
and with two members the result is the membership-wise intersection. -/
theorem C5_witness :
    common_fav_veg (present_members_fav_veg [⟨"Mom", ["Potato", "Okra"]⟩] ["Mom"]) =
      (["Potato", "Okra"] : List String).toFinset ∧
    ("Potato" ∈ common_fav_veg (present_members_fav_veg
        [⟨"Mom", ["Potato", "Okra"]⟩, ⟨"Dad", ["Potato"]⟩] ["Mom", "Dad"]) ↔
      ∀ s ∈ present_members_fav_veg [⟨"Mom", ["Potato", "Okra"]⟩, ⟨"Dad", ["Potato"]⟩]
        ["Mom", "Dad"], "Potato" ∈ s) :=
  ⟨C5_common_favorites.1 [⟨"Mom", ["Potato", "Okra"]⟩] "Mom" ⟨"Mom", ["Potato", "Okra"]⟩
      (by decide),
   C5_common_favorites.2 [⟨"Mom", ["Potato", "Okra"]⟩, ⟨"Dad", ["Potato"]⟩] ["Mom", "Dad"]
      (by decide) (by decide) "Potato"⟩

theorem dishSelected_empty_pref (dish : Dish) : dishSelected ∅ dish = false := by
  unfold dishSelected
  by_cases he : dish.ingredients.toFinset = (∅ : Finset String)
  · rw [if_pos he]
  · rw [if_neg he]
    simp

/-- C10: the matcher returns nothing at all for an empty preferred set
(whatever the dish catalog and hence whatever the allow-list contains), and in
particular a run of the endpoint in which the seasonal filter eliminates every
common favorite classifies as the informational no-match outcome, not as a
success or a distinct error. -/
theorem C10_empty_pref_info :
    (∀ dishes_data : List Dish, possible_dishes ∅ dishes_data = []) ∧
    (∀ (members : List FamilyMember) (veg : List Vegetable) (dishes : List Dish) (month : Nat)
      (present : List String), present ≠ [] → members ≠ [] →
      present.filter (fun n => decide (n ∉ members.map (fun m => m.name))) = [] →
      common_fav_veg (present_members_fav_veg members present) ≠ ∅ →
      common_fav_veg (present_members_fav_veg members present) ∩
        (get_seasonal_vegetables (get_current_season month) veg).toFinset = ∅ →
      api_recommend_sabzi members veg dishes month present = .info) := by
  have hposs : ∀ dishes_data : List Dish, possible_dishes ∅ dishes_data = [] := by
    intro dishes_data
    unfold possible_dishes
    induction dishes_data with
    | nil => rfl
    | cons d rest ih =>
      rw [List.filterMap_cons, dishSelected_empty_pref d]
      simpa using ih
  refine ⟨hposs, ?_⟩
  intro members veg dishes month present hp hm hinv hcommon hseason
  have hall := all_registered_of_no_invalid members present hinv
  have hfavs := present_members_fav_veg_ne_nil members present hp hall
  simp only [api_recommend_sabzi]
  rw [if_neg hp, if_neg hm, if_neg (by simpa using hinv), if_neg hfavs, if_neg hcommon,
    hseason, Finset.image_empty, hposs, if_pos rfl]

/-- Witness for C10: Mom likes only Potato, Potato is a summer vegetable, the
month is January (winter), and the catalog has a Potato dish; the outcome is
the informational no-match result. -/
theorem C10_witness :
    api_recommend_sabzi [⟨"Mom", ["Potato"]⟩] [⟨"Potato", ["summer"], []⟩]
      [⟨"Aloo Sabzi", ["Potato"]⟩] 1 ["Mom"] = .info :=
  C10_empty_pref_info.2 [⟨"Mom", ["Potato"]⟩] [⟨"Potato", ["summer"], []⟩]
    [⟨"Aloo Sabzi", ["Potato"]⟩] 1 ["Mom"] (by decide) (by decide) (by decide) (by decide)
    (by decide)

/-- C2 counterexample: on the same registry (Mom likes Potato), the same
vegetable catalog (Potato, a winter vegetable, with dish hint "Aloo Gobi"), the
same dish catalog (dish "Aloo Sabzi" made of Potato), the same January date and
the same present list, the database-backed endpoint recommends "Aloo Sabzi"
(ingredient matching against the dish catalog) while the file-backed agent
recommends "Aloo Gobi" (the per-vegetable dish hint): the two implementations
do not compute the same recommended dish set. -/
theorem C2_counterexample :
    api_recommend_sabzi [⟨"Mom", ["Potato"]⟩] [⟨"Potato", ["winter"], ["Aloo Gobi"]⟩]
      [⟨"Aloo Sabzi", ["Potato"]⟩] 1 ["Mom"] =
      .success "Today, you can make Aloo Sabzi." ∧
    recommend_sabzi_for_family [⟨"Mom", ["Potato"]⟩] [⟨"Potato", ["winter"], ["Aloo Gobi"]⟩]
      1 ["Mom"] = .success "Today, you can make Aloo Gobi." ∧
    api_recommend_sabzi [⟨"Mom", ["Potato"]⟩] [⟨"Potato", ["winter"], ["Aloo Gobi"]⟩]
      [⟨"Aloo Sabzi", ["Potato"]⟩] 1 ["Mom"] ≠
    recommend_sabzi_for_family [⟨"Mom", ["Potato"]⟩] [⟨"Potato", ["winter"], ["Aloo Gobi"]⟩]
      1 ["Mom"] := by
  refine ⟨by decide, by decide, ?_⟩
  decide

/-- C2 (amended): the two implementations share the validation and
common-favorite stages — for a non-empty present list and non-empty registry
they report the unknown-members error for exactly the same offending names, and
the no-common-favorites warning under exactly the same condition — but their
dish-selection stages differ by algorithm (normalized ingredient matching
against the dish catalog with the allow-list, versus the per-vegetable dish
hints), so the final recommended dish sets can differ. -/
theorem C2_backends_agree_until_matching (members : List FamilyMember)
    (veg : List Vegetable) (dishes : List Dish) (month : Nat) (present : List String)
    (hp : present ≠ []) (hm : members ≠ []) :
    (present.filter (fun n => decide (n ∉ members.map (fun m => m.name))) ≠ [] →
      api_recommend_sabzi members veg dishes month present =
        .errorUnknown (present.filter (fun n => decide (n ∉ members.map (fun m => m.name)))) ∧
      recommend_sabzi_for_family members veg month present =
        .errorUnknown (present.filter (fun n => decide (n ∉ members.map (fun m => m.name))))) ∧
    (present.filter (fun n => decide (n ∉ members.map (fun m => m.name))) = [] →
      common_fav_veg (present_members_fav_veg members present) = ∅ →
      api_recommend_sabzi members veg dishes month present = .warningNoCommon ∧
      recommend_sabzi_for_family members veg month present = .warningNoCommon) := by
  constructor
  · intro hinv
    constructor
    · simp only [api_recommend_sabzi]
      rw [if_neg hp, if_neg hm, if_pos hinv]
    · simp only [recommend_sabzi_for_family]
      rw [if_neg hm, if_pos hinv]
  · intro hinv hcommon
    have hall := all_registered_of_no_invalid members present hinv
    have hfavs := present_members_fav_veg_ne_nil members present hp hall
    constructor
    · simp only [api_recommend_sabzi]
      rw [if_neg hp, if_neg hm, if_neg (by simpa using hinv), if_neg hfavs, if_pos hcommon]
    · simp only [recommend_sabzi_for_family]
      rw [if_neg hm, if_neg (by simpa using hinv), if_neg hfavs, if_pos hcommon]

/-- Witness for C2 (amended): both implementations reject the unknown name
"Ghost" with the same offending-name list, and both warn on the disjoint
favorites of Mom and Dad. -/
theorem C2_witness :
    (api_recommend_sabzi [⟨"Mom", ["Potato"]⟩] [] [] 5 ["Ghost"] = .errorUnknown ["Ghost"] ∧
      recommend_sabzi_for_family [⟨"Mom", ["Potato"]⟩] [] 5 ["Ghost"] =
        .errorUnknown ["Ghost"]) ∧
    (api_recommend_sabzi [⟨"Mom", ["Potato"]⟩, ⟨"Dad", ["Okra"]⟩] [] [] 5 ["Mom", "Dad"]
        = .warningNoCommon ∧
      recommend_sabzi_for_family [⟨"Mom", ["Potato"]⟩, ⟨"Dad", ["Okra"]⟩] [] 5 ["Mom", "Dad"]
        = .warningNoCommon) := by
  constructor
  · have h := (C2_backends_agree_until_matching [⟨"Mom", ["Potato"]⟩] [] [] 5 ["Ghost"]
      (by decide) (by decide)).1 (by decide)
    simpa using h
  · exact (C2_backends_agree_until_matching [⟨"Mom", ["Potato"]⟩, ⟨"Dad", ["Okra"]⟩] [] [] 5
      ["Mom", "Dad"] (by decide) (by decide)).2 (by decide) (by decide)
